import Mathlib

/-!
Verification of a DAG container with cycle-rejecting insertion and Kahn
topological sort, shallowly embedded from the Rust source (`src/lib.rs`).

Modelling choices:
* `BTreeMap<u32, DagNode>` is modelled as a key-sorted association list
  (`NodeMap`); `insertMap` keeps the ascending key order and replaces an
  existing binding, `lookupMap` is `BTreeMap::get`.
* `VecDeque<u32>` is modelled as a `List Nat` with the front at the head;
  `push_back` appends at the tail.
* The `while let Some(node_id) = queue.pop_front()` loop of `sort` is
  modelled by the fuel recursion `sortLoop`; the fuel supplied by
  `DAG.sort` is the loop measure (total length of all source lists plus
  the queue length), which `scanLoop_measure` shows strictly decreases at
  every iteration, so the fuel never runs out: `sortLoop` always exits
  through the `queue = []` branch, exactly like the Rust loop.
* The inner `for (&other_id, node) in inner.iter_mut()` scan of one popped
  identifier is `scanLoop`; one entry of that scan is `scanEntry`.  As in
  the source, `position` followed by `remove(pos)` removes only the first
  occurrence of the popped identifier (`List.erase`).
* `DAG::add_node` returns `Box<dyn Error>` only for the single "Cycling"
  case, modelled by `DagError.CycleDetected`; the `unwrap()` on the
  success path is modelled by an outer `Option`, where `none` stands for
  the panic branch.
-/

structure DagNode where
  sources : List Nat
deriving DecidableEq

def DagNode.sources_len (n : DagNode) : Nat := n.sources.length

abbrev NodeMap := List (Nat × DagNode)

def lookupMap (k : Nat) : NodeMap → Option DagNode
  | [] => none
  | e :: rest => if k = e.1 then some e.2 else lookupMap k rest

def insertMap (k : Nat) (v : DagNode) : NodeMap → NodeMap
  | [] => [(k, v)]
  | e :: rest =>
    if k < e.1 then (k, v) :: e :: rest
    else if k = e.1 then (k, v) :: rest
    else e :: insertMap k v rest

def keysOf (m : NodeMap) : List Nat := m.map Prod.fst

def sumSrc (m : NodeMap) : Nat := (m.map (fun e => e.2.sources.length)).sum

structure DAG where
  inner : NodeMap
deriving DecidableEq

def DAG.new : DAG := ⟨[]⟩

/-- One step of the `for (&other_id, node) in inner.iter_mut()` scan of
`sort` for the popped identifier `nid`: remove the first occurrence of
`nid` from the entry's source list, and enqueue the entry's key when its
source list just became empty and the key is neither already emitted nor
already queued. -/
def scanEntry (nid : Nat) (sorted queue : List Nat) (e : Nat × DagNode) :
    (Nat × DagNode) × List Nat :=
  if nid ∈ e.2.sources then
    if (e.2.sources.erase nid).length = 0 ∧ e.1 ∉ sorted ∧ e.1 ∉ queue then
      ((e.1, ⟨e.2.sources.erase nid⟩), queue ++ [e.1])
    else ((e.1, ⟨e.2.sources.erase nid⟩), queue)
  else (e, queue)

/-- The full scan of the working map for one popped identifier, threading
the queue through the entries in map order. -/
def scanLoop (nid : Nat) (sorted : List Nat) : NodeMap → List Nat → NodeMap × List Nat
  | [], queue => ([], queue)
  | e :: rest, queue =>
    let p := scanEntry nid sorted queue e
    let q := scanLoop nid sorted rest p.2
    (p.1 :: q.1, q.2)

/-- The `while let Some(node_id) = queue.pop_front()` loop of `sort`,
with explicit fuel.  Returns the emitted sequence and the final working
map. -/
def sortLoop : Nat → NodeMap → List Nat → List Nat → List Nat × NodeMap
  | 0, m, _, sorted => (sorted, m)
  | _ + 1, m, [], sorted => (sorted, m)
  | fuel + 1, m, nid :: qrest, sorted =>
    let r := scanLoop nid (sorted ++ [nid]) m qrest
    sortLoop fuel r.1 r.2 (sorted ++ [nid])

/-- Initial queue of `sort`: every key whose node currently has zero
sources, in map (ascending key) order. -/
def initQueue (m : NodeMap) : List Nat :=
  (m.filter (fun e => e.2.sources.length == 0)).map Prod.fst

/-- Kahn's algorithm on a working copy of the map, as in
`<DAG as TopologicalSort>::sort`, run with sufficient fuel. -/
def kahnRun (m : NodeMap) : List Nat × NodeMap :=
  sortLoop (sumSrc m + (initQueue m).length) m (initQueue m) []

/-- `<DAG as TopologicalSort>::sort`: `None` when the emitted sequence
does not cover the whole map, otherwise `Some` of the emitted sequence. -/
def DAG.sort (g : DAG) : Option (List Nat) :=
  if (kahnRun g.inner).1.length ≠ (kahnRun g.inner).2.length then none
  else some (kahnRun g.inner).1

inductive DagError
  | CycleDetected
deriving DecidableEq

instance decEqExcept {ε α : Type} [DecidableEq ε] [DecidableEq α] : DecidableEq (Except ε α)
  | Except.error a, Except.error b =>
    if h : a = b then isTrue (congrArg Except.error h)
    else isFalse (fun he => h (Except.error.inj he))
  | Except.error _, Except.ok _ => isFalse (fun h => Except.noConfusion h)
  | Except.ok _, Except.error _ => isFalse (fun h => Except.noConfusion h)
  | Except.ok a, Except.ok b =>
    if h : a = b then isTrue (congrArg Except.ok h)
    else isFalse (fun he => h (Except.ok.inj he))

/-- `DAG::add_node`: validate a copy of the map with the candidate node
inserted by running `sort` on it; on failure return the error and leave
the graph unchanged, on success commit the node looked up from the
validated copy (`none` of the outer `Option` models the `unwrap()`
panic branch). -/
def DAG.add_node (g : DAG) (node_id : Nat) (node : DagNode) :
    Option (Except DagError (Option DagNode) × DAG) :=
  if (DAG.sort ⟨insertMap node_id node g.inner⟩).isNone then
    some (Except.error DagError.CycleDetected, g)
  else
    match lookupMap node_id (insertMap node_id node g.inner) with
    | none => none
    | some n => some (Except.ok (lookupMap node_id g.inner), ⟨insertMap node_id n g.inner⟩)

/-- `DAG::in_degree`. -/
def DAG.in_degree (g : DAG) (node : Nat) : Option Nat :=
  (lookupMap node g.inner).map (fun ns => ns.sources.length)

/-- Well-formedness delivered by `BTreeMap`: the association list is
strictly sorted by key (hence keys are unique). -/
def DAG.WF (g : DAG) : Prop := (keysOf g.inner).Pairwise (· < ·)

instance decWF (g : DAG) : Decidable g.WF :=
  inferInstanceAs (Decidable ((keysOf g.inner).Pairwise (· < ·)))

/-- Public operations of the library, for stating state invariants over
arbitrary call sequences.  `in_degree` and `sort` take `&self` and cannot
change the graph. -/
inductive Op
  | add (id : Nat) (node : DagNode)
  | degreeQuery (id : Nat)
  | sortQuery

def applyOp (g : DAG) : Op → DAG
  | Op.add id node =>
    match g.add_node id node with
    | some (_, g2) => g2
    | none => g
  | Op.degreeQuery _ => g
  | Op.sortQuery => g

def runOps (ops : List Op) : DAG := ops.foldl applyOp DAG.new

/-- Current source list recorded for key `k` (empty when `k` is absent). -/
def getSrc (m : NodeMap) (k : Nat) : List Nat :=
  match lookupMap k m with
  | some n => n.sources
  | none => []

/-- Loop invariant of Kahn's algorithm relating the original map `m0` to
the working state (working map `m`, queue, emitted sequence `sorted`). -/
structure KahnInv (m0 m : NodeMap) (queue sorted : List Nat) : Prop where
  keys_eq : keysOf m = keysOf m0
  sorted_nodup : sorted.Nodup
  queue_nodup : queue.Nodup
  disj : ∀ k ∈ queue, k ∉ sorted
  sorted_sub : ∀ k ∈ sorted, k ∈ keysOf m0
  queue_sub : ∀ k ∈ queue, k ∈ keysOf m0
  track : ∀ k p, p ∈ getSrc m0 k → p ∈ getSrc m k ∨ p ∈ sorted
  sorted_done : ∀ k ∈ sorted, getSrc m k = []
  queue_done : ∀ k ∈ queue, getSrc m k = []
  ready : ∀ k ∈ queue, ∀ p ∈ getSrc m0 k, p ∈ sorted
  valid : ∀ i, (h : i < sorted.length) → ∀ p ∈ getSrc m0 (sorted.get ⟨i, h⟩), p ∈ sorted.take i

/-- Scenario A of the spec: 1 with no sources, 2 and 3 depending on 1,
4 depending on 2 and 3. -/
def exA : DAG := ⟨[(1, ⟨[]⟩), (2, ⟨[1]⟩), (3, ⟨[1]⟩), (4, ⟨[2, 3]⟩)]⟩

/-- One node after a fresh insertion into the empty graph. -/
def exB : DAG := ⟨[(1, ⟨[]⟩)]⟩

/-- Scenario C of the spec: node 5 with the dangling source 99. -/
def exDangling : DAG := ⟨insertMap 5 ⟨[99]⟩ []⟩

/-- A node with an empty source list, and a node listing it twice. -/
def exDup : DAG := ⟨insertMap 2 ⟨[1, 1]⟩ (insertMap 1 ⟨[]⟩ [])⟩

@[simp] theorem keysOf_nil : keysOf [] = [] := rfl

@[simp] theorem keysOf_cons (e : Nat × DagNode) (m : NodeMap) :
    keysOf (e :: m) = e.1 :: keysOf m := rfl

@[simp] theorem sumSrc_nil : sumSrc [] = 0 := rfl

@[simp] theorem sumSrc_cons (e : Nat × DagNode) (m : NodeMap) :
    sumSrc (e :: m) = e.2.sources.length + sumSrc m := rfl

theorem keysOf_length (m : NodeMap) : (keysOf m).length = m.length := by
  simp [keysOf]

theorem lookupMap_insert_self (k : Nat) (v : DagNode) (m : NodeMap) :
    lookupMap k (insertMap k v m) = some v := by
  induction m with
  | nil => simp [insertMap, lookupMap]
  | cons e rest ih =>
    by_cases h1 : k < e.1
    · simp [insertMap, h1, lookupMap]
    · by_cases h2 : k = e.1
      · simp [insertMap, h1, h2, lookupMap]
      · simp [insertMap, h1, h2, lookupMap, ih]

theorem lookupMap_insert_ne (k q : Nat) (v : DagNode) (m : NodeMap) (h : q ≠ k) :
    lookupMap q (insertMap k v m) = lookupMap q m := by
  induction m with
  | nil => simp [insertMap, lookupMap, h]
  | cons e rest ih =>
    by_cases h1 : k < e.1
    · simp [insertMap, h1, lookupMap, h]
    · by_cases h2 : k = e.1
      · subst h2
        simp [insertMap, h1, lookupMap, h]
      · simp [insertMap, h1, h2, lookupMap, ih]

theorem lookupMap_eq_some_of_mem (m : NodeMap) (k : Nat) (node : DagNode)
    (hnd : (keysOf m).Nodup) (hmem : (k, node) ∈ m) : lookupMap k m = some node := by
  induction m with
  | nil => simp at hmem
  | cons e rest ih =>
    rcases List.mem_cons.1 hmem with he | hr
    · rw [← he]
      simp [lookupMap]
    · have hknd := List.nodup_cons.1 hnd
      have hk : k ≠ e.1 := by
        intro hkeq
        exact hknd.1 (hkeq ▸ List.mem_map_of_mem Prod.fst hr)
      simp [lookupMap, hk, ih hknd.2 hr]

theorem getSrc_of_mem (m : NodeMap) (k : Nat) (node : DagNode)
    (hnd : (keysOf m).Nodup) (hmem : (k, node) ∈ m) : getSrc m k = node.sources := by
  simp [getSrc, lookupMap_eq_some_of_mem m k node hnd hmem]

theorem lookupMap_map (f : DagNode → DagNode) (k : Nat) (m : NodeMap) :
    lookupMap k (m.map (fun e => (e.1, f e.2))) = (lookupMap k m).map f := by
  induction m with
  | nil => rfl
  | cons e rest ih => by_cases h : k = e.1 <;> simp [lookupMap, h, ih]

theorem scanEntry_push (nid : Nat) (sorted queue : List Nat) (a : Nat) (s : List Nat)
    (h : nid ∈ s) (hg : (s.erase nid).length = 0 ∧ a ∉ sorted ∧ a ∉ queue) :
    scanEntry nid sorted queue (a, ⟨s⟩) = ((a, ⟨s.erase nid⟩), queue ++ [a]) := by
  unfold scanEntry
  rw [if_pos h, if_pos hg]

theorem scanEntry_hit (nid : Nat) (sorted queue : List Nat) (a : Nat) (s : List Nat)
    (h : nid ∈ s) (hg : ¬((s.erase nid).length = 0 ∧ a ∉ sorted ∧ a ∉ queue)) :
    scanEntry nid sorted queue (a, ⟨s⟩) = ((a, ⟨s.erase nid⟩), queue) := by
  unfold scanEntry
  rw [if_pos h, if_neg hg]

theorem scanEntry_miss (nid : Nat) (sorted queue : List Nat) (a : Nat) (s : List Nat)
    (h : nid ∉ s) : scanEntry nid sorted queue (a, ⟨s⟩) = ((a, ⟨s⟩), queue) := by
  unfold scanEntry
  rw [if_neg h]

theorem scanLoop_cons (nid : Nat) (sorted : List Nat) (e : Nat × DagNode) (rest : NodeMap)
    (queue : List Nat) :
    scanLoop nid sorted (e :: rest) queue =
      ((scanEntry nid sorted queue e).1 ::
          (scanLoop nid sorted rest (scanEntry nid sorted queue e).2).1,
        (scanLoop nid sorted rest (scanEntry nid sorted queue e).2).2) := rfl

theorem scanLoop_fst (nid : Nat) (sorted : List Nat) (m : NodeMap) (queue : List Nat) :
    (scanLoop nid sorted m queue).1 = m.map (fun e => (e.1, ⟨e.2.sources.erase nid⟩)) := by
  induction m generalizing queue with
  | nil => rfl
  | cons e rest ih =>
    obtain ⟨a, ⟨s⟩⟩ := e
    rw [scanLoop_cons, List.map_cons]
    by_cases h : nid ∈ s
    · by_cases hg : (s.erase nid).length = 0 ∧ a ∉ sorted ∧ a ∉ queue
      · rw [scanEntry_push nid sorted queue a s h hg]
        simpa using ih (queue ++ [a])
      · rw [scanEntry_hit nid sorted queue a s h hg]
        simpa using ih queue
    · rw [scanEntry_miss nid sorted queue a s h, List.erase_of_not_mem h]
      simpa using ih queue

theorem keysOf_scanLoop (nid : Nat) (sorted : List Nat) (m : NodeMap) (queue : List Nat) :
    keysOf (scanLoop nid sorted m queue).1 = keysOf m := by
  rw [scanLoop_fst]
  induction m with
  | nil => rfl
  | cons e rest ih => simpa using ih

theorem getSrc_scanLoop (nid : Nat) (sorted : List Nat) (m : NodeMap) (queue : List Nat)
    (k : Nat) : getSrc (scanLoop nid sorted m queue).1 k = (getSrc m k).erase nid := by
  rw [scanLoop_fst]
  unfold getSrc
  rw [lookupMap_map (fun n => ⟨n.sources.erase nid⟩) k m]
  cases lookupMap k m <;> simp

theorem scanLoop_snd_spec (nid : Nat) (sorted : List Nat) (m : NodeMap) (queue : List Nat) :
    ∃ new, (scanLoop nid sorted m queue).2 = queue ++ new ∧
      ∀ k ∈ new, k ∉ sorted ∧
        ∃ node, (k, node) ∈ m ∧ nid ∈ node.sources ∧ node.sources.erase nid = [] := by
  induction m generalizing queue with
  | nil => exact ⟨[], by simp [scanLoop], by simp⟩
  | cons e rest ih =>
    obtain ⟨a, ⟨s⟩⟩ := e
    rw [scanLoop_cons]
    by_cases h : nid ∈ s
    · by_cases hg : (s.erase nid).length = 0 ∧ a ∉ sorted ∧ a ∉ queue
      · rw [scanEntry_push nid sorted queue a s h hg]
        obtain ⟨new, hq, hmem⟩ := ih (queue ++ [a])
        refine ⟨a :: new, ?_, ?_⟩
        · rw [hq, List.append_assoc]
          rfl
        · intro k hk
          rcases List.mem_cons.1 hk with hk | hk
          · subst hk
            exact ⟨hg.2.1, ⟨⟨s⟩, List.mem_cons_self _ _, h, List.length_eq_zero.1 hg.1⟩⟩
          · obtain ⟨h1, node, h2, h3, h4⟩ := hmem k hk
            exact ⟨h1, node, List.mem_cons_of_mem _ h2, h3, h4⟩
      · rw [scanEntry_hit nid sorted queue a s h hg]
        obtain ⟨new, hq, hmem⟩ := ih queue
        refine ⟨new, hq, ?_⟩
        intro k hk
        obtain ⟨h1, node, h2, h3, h4⟩ := hmem k hk
        exact ⟨h1, node, List.mem_cons_of_mem _ h2, h3, h4⟩
    · rw [scanEntry_miss nid sorted queue a s h]
      obtain ⟨new, hq, hmem⟩ := ih queue
      refine ⟨new, hq, ?_⟩
      intro k hk
      obtain ⟨h1, node, h2, h3, h4⟩ := hmem k hk
      exact ⟨h1, node, List.mem_cons_of_mem _ h2, h3, h4⟩

theorem scanLoop_snd_nodup (nid : Nat) (sorted : List Nat) (m : NodeMap) (queue : List Nat)
    (h : queue.Nodup) : (scanLoop nid sorted m queue).2.Nodup := by
  induction m generalizing queue with
  | nil => simpa [scanLoop]
  | cons e rest ih =>
    obtain ⟨a, ⟨s⟩⟩ := e
    rw [scanLoop_cons]
    by_cases h1 : nid ∈ s
    · by_cases hg : (s.erase nid).length = 0 ∧ a ∉ sorted ∧ a ∉ queue
      · have hq : (queue ++ [a]).Nodup := by
          rw [List.nodup_append]
          refine ⟨h, List.nodup_singleton a, ?_⟩
          intro x hx hxa
          rw [List.mem_singleton] at hxa
          exact hg.2.2 (hxa ▸ hx)
        rw [scanEntry_push nid sorted queue a s h1 hg]
        exact ih (queue ++ [a]) hq
      · rw [scanEntry_hit nid sorted queue a s h1 hg]
        exact ih queue h
    · rw [scanEntry_miss nid sorted queue a s h1]
      exact ih queue h

theorem scanLoop_measure (nid : Nat) (sorted : List Nat) (m : NodeMap) (queue : List Nat) :
    sumSrc (scanLoop nid sorted m queue).1 + (scanLoop nid sorted m queue).2.length ≤
      sumSrc m + queue.length := by
  induction m generalizing queue with
  | nil => simp [scanLoop]
  | cons e rest ih =>
    obtain ⟨a, ⟨s⟩⟩ := e
    rw [scanLoop_cons]
    by_cases h1 : nid ∈ s
    · have hlen : (s.erase nid).length = s.length - 1 := List.length_erase_of_mem h1
      have hpos : 0 < s.length := List.length_pos.2 (List.ne_nil_of_mem h1)
      by_cases hg : (s.erase nid).length = 0 ∧ a ∉ sorted ∧ a ∉ queue
      · rw [scanEntry_push nid sorted queue a s h1 hg]
        have hrec := ih (queue ++ [a])
        simp only [sumSrc_cons, List.length_append, List.length_singleton] at hrec ⊢
        omega
      · rw [scanEntry_hit nid sorted queue a s h1 hg]
        have hrec := ih queue
        simp only [sumSrc_cons] at hrec ⊢
        omega
    · rw [scanEntry_miss nid sorted queue a s h1]
      have hrec := ih queue
      simp only [sumSrc_cons] at hrec ⊢
      omega

theorem mem_erase_or_eq (p a : Nat) (l : List Nat) (h : p ∈ l) : p ∈ l.erase a ∨ p = a := by
  by_cases hpa : p = a
  · exact Or.inr hpa
  · exact Or.inl ((List.mem_erase_of_ne hpa).2 h)

theorem eq_of_erase_eq_nil (p a : Nat) (l : List Nat) (hp : p ∈ l) (h : l.erase a = []) :
    p = a := by
  by_contra hpa
  exact (List.ne_nil_of_mem ((List.mem_erase_of_ne hpa).2 hp)) h

theorem indexOf_lt_of_mem_take (l : List Nat) (i : Nat) (p : Nat) (h : p ∈ l.take i) :
    l.indexOf p < i := by
  induction l generalizing i with
  | nil => simp at h
  | cons x xs ih =>
    cases i with
    | zero => simp at h
    | succ j =>
      rw [List.take_succ_cons] at h
      by_cases hpx : p = x
      · subst hpx
        simp [List.indexOf_cons_self]
      · rcases List.mem_cons.1 h with h1 | h2
        · exact absurd h1 hpx
        · have hne : x ≠ p := fun he => hpx he.symm
          rw [List.indexOf_cons_ne _ hne]
          exact Nat.succ_lt_succ (ih j h2)

theorem get_append_length (l : List Nat) (a : Nat) (h : l.length < (l ++ [a]).length) :
    (l ++ [a]).get ⟨l.length, h⟩ = a := by
  simp

theorem wf_nodup (g : DAG) (h : g.WF) : (keysOf g.inner).Nodup :=
  h.imp (fun hlt => Nat.ne_of_lt hlt)

theorem step_inv (m0 m : NodeMap) (nid : Nat) (qrest sorted : List Nat)
    (hnd : (keysOf m0).Nodup)
    (inv : KahnInv m0 m (nid :: qrest) sorted) :
    KahnInv m0 (scanLoop nid (sorted ++ [nid]) m qrest).1
      (scanLoop nid (sorted ++ [nid]) m qrest).2 (sorted ++ [nid]) := by
  obtain ⟨new, hq, hnew⟩ := scanLoop_snd_spec nid (sorted ++ [nid]) m qrest
  have hndm : (keysOf m).Nodup := inv.keys_eq ▸ hnd
  have hnidq : nid ∈ nid :: qrest := List.mem_cons_self _ _
  have hnids : nid ∉ sorted := inv.disj nid hnidq
  have hqrest_nd : qrest.Nodup := (List.nodup_cons.1 inv.queue_nodup).2
  have hnid_qrest : nid ∉ qrest := (List.nodup_cons.1 inv.queue_nodup).1
  refine ⟨?_, ?_, ?_, ?_, ?_, ?_, ?_, ?_, ?_, ?_, ?_⟩
  · exact (keysOf_scanLoop _ _ _ _).trans inv.keys_eq
  · rw [List.nodup_append]
    refine ⟨inv.sorted_nodup, List.nodup_singleton nid, ?_⟩
    intro x hx hxn
    rw [List.mem_singleton] at hxn
    exact hnids (hxn ▸ hx)
  · exact scanLoop_snd_nodup _ _ _ _ hqrest_nd
  · intro k hk
    rw [hq] at hk
    rcases List.mem_append.1 hk with hk | hk
    · have h1 := inv.disj k (List.mem_cons_of_mem _ hk)
      have h2 : k ≠ nid := fun he => hnid_qrest (he ▸ hk)
      intro hmem
      rcases List.mem_append.1 hmem with hmem | hmem
      · exact h1 hmem
      · exact h2 (List.mem_singleton.1 hmem)
    · exact (hnew k hk).1
  · intro k hk
    rcases List.mem_append.1 hk with hk | hk
    · exact inv.sorted_sub k hk
    · rw [List.mem_singleton] at hk
      exact hk ▸ inv.queue_sub nid hnidq
  · intro k hk
    rw [hq] at hk
    rcases List.mem_append.1 hk with hk | hk
    · exact inv.queue_sub k (List.mem_cons_of_mem _ hk)
    · obtain ⟨-, node, hmem, -, -⟩ := hnew k hk
      exact inv.keys_eq ▸ (List.mem_map_of_mem Prod.fst hmem)
  · intro k p hp
    rcases inv.track k p hp with h | h
    · rw [getSrc_scanLoop]
      rcases mem_erase_or_eq p nid (getSrc m k) h with h2 | h2
      · exact Or.inl h2
      · exact Or.inr (List.mem_append.2 (Or.inr (List.mem_singleton.2 h2)))
    · exact Or.inr (List.mem_append.2 (Or.inl h))
  · intro k hk
    rw [getSrc_scanLoop]
    rcases List.mem_append.1 hk with hk | hk
    · rw [inv.sorted_done k hk]
      rfl
    · rw [List.mem_singleton] at hk
      rw [hk, inv.queue_done nid hnidq]
      rfl
  · intro k hk
    rw [hq] at hk
    rw [getSrc_scanLoop]
    rcases List.mem_append.1 hk with hk | hk
    · rw [inv.queue_done k (List.mem_cons_of_mem _ hk)]
      rfl
    · obtain ⟨-, node, hmem, -, hz⟩ := hnew k hk
      rw [getSrc_of_mem m k node hndm hmem, hz]
  · intro k hk p hp
    rw [hq] at hk
    rcases List.mem_append.1 hk with hk | hk
    · exact List.mem_append.2 (Or.inl (inv.ready k (List.mem_cons_of_mem _ hk) p hp))
    · obtain ⟨-, node, hmem, hin, hz⟩ := hnew k hk
      rcases inv.track k p hp with h | h
      · rw [getSrc_of_mem m k node hndm hmem] at h
        have hpn : p = nid := eq_of_erase_eq_nil p nid node.sources h hz
        exact List.mem_append.2 (Or.inr (List.mem_singleton.2 hpn))
      · exact List.mem_append.2 (Or.inl h)
  · intro i hi p hp
    by_cases hic : i < sorted.length
    · have hget : (sorted ++ [nid]).get ⟨i, hi⟩ = sorted.get ⟨i, hic⟩ := by
        simp only [List.get_eq_getElem]
        exact List.getElem_append_left hic
      rw [hget] at hp
      have h2 := inv.valid i hic p hp
      rw [List.take_append_of_le_length (le_of_lt hic)]
      exact h2
    · have hieq : i = sorted.length := by
        have := hi
        simp only [List.length_append, List.length_singleton] at this
        omega
      subst hieq
      rw [get_append_length sorted nid hi] at hp
      have h2 := inv.ready nid hnidq p hp
      have htake : (sorted ++ [nid]).take sorted.length = sorted := List.take_left sorted [nid]
      rw [htake]
      exact h2

theorem sortLoop_inv (m0 : NodeMap) (hnd : (keysOf m0).Nodup) :
    ∀ fuel m queue sorted, KahnInv m0 m queue sorted →
      sumSrc m + queue.length ≤ fuel →
      KahnInv m0 (sortLoop fuel m queue sorted).2 [] (sortLoop fuel m queue sorted).1 := by
  intro fuel
  induction fuel with
  | zero =>
    intro m queue sorted inv hle
    have hq : queue = [] := by
      cases queue with
      | nil => rfl
      | cons a l =>
        simp only [List.length_cons] at hle
        omega
    subst hq
    exact inv
  | succ f ih =>
    intro m queue sorted inv hle
    cases queue with
    | nil => exact inv
    | cons nid qrest =>
      have hstep := step_inv m0 m nid qrest sorted hnd inv
      have hm := scanLoop_measure nid (sorted ++ [nid]) m qrest
      show KahnInv m0 (sortLoop f (scanLoop nid (sorted ++ [nid]) m qrest).1
        (scanLoop nid (sorted ++ [nid]) m qrest).2 (sorted ++ [nid])).2 []
        (sortLoop f (scanLoop nid (sorted ++ [nid]) m qrest).1
          (scanLoop nid (sorted ++ [nid]) m qrest).2 (sorted ++ [nid])).1
      refine ih _ _ _ hstep ?_
      simp only [List.length_cons] at hle
      omega

theorem initQueue_sub (m : NodeMap) : ∀ k ∈ initQueue m, k ∈ keysOf m := by
  intro k hk
  unfold initQueue at hk
  rw [List.mem_map] at hk
  obtain ⟨e, he, rfl⟩ := hk
  exact List.mem_map_of_mem Prod.fst (List.mem_of_mem_filter he)

theorem initQueue_nodup (m : NodeMap) (h : (keysOf m).Nodup) : (initQueue m).Nodup := by
  have hsub : (initQueue m).Sublist (keysOf m) :=
    List.Sublist.map Prod.fst (List.filter_sublist m)
  exact List.Nodup.sublist hsub h

theorem initQueue_done (m : NodeMap) (h : (keysOf m).Nodup) :
    ∀ k ∈ initQueue m, getSrc m k = [] := by
  intro k hk
  unfold initQueue at hk
  rw [List.mem_map] at hk
  obtain ⟨e, he, rfl⟩ := hk
  have hmem := List.mem_of_mem_filter he
  have hz := List.of_mem_filter he
  simp only [beq_iff_eq] at hz
  obtain ⟨a, node⟩ := e
  rw [getSrc_of_mem m a node h hmem]
  exact List.length_eq_zero.1 hz

theorem init_inv (m0 : NodeMap) (hnd : (keysOf m0).Nodup) :
    KahnInv m0 m0 (initQueue m0) [] := by
  refine ⟨rfl, List.nodup_nil, initQueue_nodup m0 hnd, ?_, ?_, initQueue_sub m0,
    ?_, ?_, initQueue_done m0 hnd, ?_, ?_⟩
  · intro k _ hk
    exact List.not_mem_nil k hk
  · intro k hk
    exact absurd hk (List.not_mem_nil k)
  · intro k p hp
    exact Or.inl hp
  · intro k hk
    exact absurd hk (List.not_mem_nil k)
  · intro k hk p hp
    rw [initQueue_done m0 hnd k hk] at hp
    exact absurd hp (List.not_mem_nil p)
  · intro i hi
    exact absurd hi (Nat.not_lt_zero i)

theorem sort_final (g : DAG) (h : g.WF) :
    KahnInv g.inner (kahnRun g.inner).2 [] (kahnRun g.inner).1 := by
  have hnd := wf_nodup g h
  exact sortLoop_inv g.inner hnd _ _ _ _ (init_inv g.inner hnd) (le_refl _)

theorem kahnRun_snd_length (g : DAG) (h : g.WF) :
    (kahnRun g.inner).2.length = g.inner.length := by
  have inv := sort_final g h
  rw [← keysOf_length, inv.keys_eq, keysOf_length]

theorem success_perm (m0 mf : NodeMap) (sf : List Nat)
    (inv : KahnInv m0 mf [] sf) (hlen : sf.length = (keysOf m0).length) :
    sf.Perm (keysOf m0) := by
  have hsub : sf ⊆ keysOf m0 := fun k hk => inv.sorted_sub k hk
  have hsp : sf.Subperm (keysOf m0) := List.subperm_of_subset inv.sorted_nodup hsub
  exact List.Subperm.perm_of_length_le hsp (le_of_eq hlen.symm)

theorem sort_spec_some (g : DAG) (order : List Nat) (h : g.sort = some order) :
    (kahnRun g.inner).1 = order ∧
      (kahnRun g.inner).1.length = (kahnRun g.inner).2.length := by
  unfold DAG.sort at h
  by_cases hc : (kahnRun g.inner).1.length ≠ (kahnRun g.inner).2.length
  · rw [if_pos hc] at h
    exact absurd h (by simp)
  · rw [if_neg hc] at h
    exact ⟨Option.some.inj h, not_not.1 hc⟩

/-- Claim C10: `add_node` never panics: the `unwrap()` on the success path
always finds the entry just inserted into the validated copy, so the call
always produces a value (the outer `Option` modelling the panic branch is
always `some`). -/
theorem claim_C10_add_node_never_panics (g : DAG) (node_id : Nat) (node : DagNode) :
    (g.add_node node_id node).isSome = true := by
  unfold DAG.add_node
  by_cases h : (DAG.sort ⟨insertMap node_id node g.inner⟩).isNone
  · rw [if_pos h]
    rfl
  · rw [if_neg h, lookupMap_insert_self]
    rfl

/-- Claim C2: when `add_node` returns an error the graph is left
unchanged, so every `in_degree` result and the `sort` result are
identical before and after the call. -/
theorem claim_C2_add_node_atomic_on_failure (g : DAG) (node_id : Nat) (node : DagNode)
    (r : DagError) (g2 : DAG)
    (h : g.add_node node_id node = some (Except.error r, g2)) :
    (∀ x, g2.in_degree x = g.in_degree x) ∧ g2.sort = g.sort := by
  have hg : g2 = g := by
    unfold DAG.add_node at h
    by_cases hc : (DAG.sort ⟨insertMap node_id node g.inner⟩).isNone
    · rw [if_pos hc] at h
      simp only [Option.some.injEq, Prod.mk.injEq] at h
      exact h.2.symm
    · rw [if_neg hc, lookupMap_insert_self] at h
      simp at h
  subst hg
  exact ⟨fun x => rfl, rfl⟩

theorem claim_C2_witness :
    DAG.new.in_degree 1 = DAG.new.in_degree 1 ∧ DAG.new.sort = DAG.new.sort :=
  ⟨(claim_C2_add_node_atomic_on_failure DAG.new 1 ⟨[1]⟩ DagError.CycleDetected DAG.new
      (by decide)).1 1,
    (claim_C2_add_node_atomic_on_failure DAG.new 1 ⟨[1]⟩ DagError.CycleDetected DAG.new
      (by decide)).2⟩

/-- Claim C3: `add_node` fails (with the only error kind,
`CycleDetected`, leaving the graph unchanged) exactly when `sort` on the
mapping with the candidate inserted returns `None`; otherwise it returns
`Ok` with the committed graph. -/
theorem claim_C3_error_iff_cycle (g : DAG) (node_id : Nat) (node : DagNode) :
    (g.add_node node_id node = some (Except.error DagError.CycleDetected, g) ↔
      DAG.sort ⟨insertMap node_id node g.inner⟩ = none)
    ∧ (DAG.sort ⟨insertMap node_id node g.inner⟩ ≠ none →
      g.add_node node_id node =
        some (Except.ok (lookupMap node_id g.inner), ⟨insertMap node_id node g.inner⟩)) := by
  unfold DAG.add_node
  by_cases hc : (DAG.sort ⟨insertMap node_id node g.inner⟩).isNone
  · have hn := Option.isNone_iff_eq_none.1 hc
    rw [if_pos hc]
    exact ⟨iff_of_true rfl hn, fun hne => absurd hn hne⟩
  · have hn : DAG.sort ⟨insertMap node_id node g.inner⟩ ≠ none :=
      fun hnone => hc (Option.isNone_iff_eq_none.2 hnone)
    rw [if_neg hc, lookupMap_insert_self]
    exact ⟨iff_of_false (by simp) hn, fun _ => rfl⟩

theorem claim_C3_witness :
    DAG.new.add_node 1 ⟨[1]⟩ = some (Except.error DagError.CycleDetected, DAG.new) :=
  (claim_C3_error_iff_cycle DAG.new 1 ⟨[1]⟩).1.mpr (by decide)

/-- Claim C8: on success `add_node` returns the node previously stored at
the identifier (`none` for a fresh insertion), stores exactly the new
node at the identifier, and leaves every other key's binding unchanged. -/
theorem claim_C8_success_postcondition (g : DAG) (node_id : Nat) (node : DagNode)
    (prev : Option DagNode) (g2 : DAG)
    (h : g.add_node node_id node = some (Except.ok prev, g2)) :
    prev = lookupMap node_id g.inner
    ∧ lookupMap node_id g2.inner = some node
    ∧ ∀ k, k ≠ node_id → lookupMap k g2.inner = lookupMap k g.inner := by
  unfold DAG.add_node at h
  by_cases hc : (DAG.sort ⟨insertMap node_id node g.inner⟩).isNone
  · rw [if_pos hc] at h
    simp at h
  · rw [if_neg hc, lookupMap_insert_self] at h
    simp only [Option.some.injEq, Prod.mk.injEq, Except.ok.injEq] at h
    obtain ⟨hprev, hg2⟩ := h
    subst hg2
    exact ⟨hprev.symm, lookupMap_insert_self node_id node g.inner,
      fun k hk => lookupMap_insert_ne node_id k node g.inner hk⟩

theorem claim_C8_witness :
    (none : Option DagNode) = lookupMap 1 DAG.new.inner
    ∧ lookupMap 1 exB.inner = some ⟨[]⟩
    ∧ lookupMap 0 exB.inner = lookupMap 0 DAG.new.inner := by
  have H := claim_C8_success_postcondition DAG.new 1 ⟨[]⟩ none exB (by decide)
  exact ⟨H.1, H.2.1, H.2.2 0 (by decide)⟩

/-- Claim C9: `in_degree` returns the `sources_len` of the node stored at
the identifier, and is `None` exactly when the identifier is absent; as a
pure function of the graph it neither mutates nor fails. -/
theorem claim_C9_in_degree_lookup (g : DAG) (id : Nat) :
    g.in_degree id = (lookupMap id g.inner).map DagNode.sources_len
    ∧ (g.in_degree id = none ↔ lookupMap id g.inner = none) := by
  refine ⟨rfl, ?_⟩
  unfold DAG.in_degree
  cases lookupMap id g.inner <;> simp

theorem claim_C9_witness : exB.in_degree 1 = some 0 := by
  have H := claim_C9_in_degree_lookup exB 1
  rw [H.1]
  decide

/-- Claim C6 counterexample: the claim asserts that when an identifier is
popped every occurrence of it is removed from each remaining node's
predecessor list, so that the graph mapping 1 to no sources and 2 to
sources [1, 1] sorts successfully; on the code, `sort` of that graph
returns `none`. -/
theorem claim_C6_counterexample : DAG.sort exDup = none := by decide

/-- Claim C6 (amended): when an identifier is popped only the first
occurrence of it in each remaining node's predecessor list is removed, so
a node listing the same predecessor twice never reaches an empty list and
the graph mapping 1 to no sources and 2 to sources [1, 1] fails to sort:
`sort` returns `none`. -/
theorem claim_C6_amended_first_occurrence :
    scanLoop 1 [1] [(2, DagNode.mk [1, 1])] [] = ([(2, DagNode.mk [1])], [])
    ∧ DAG.sort exDup = none :=
  ⟨by decide, by decide⟩

theorem applyOp_sortable (g : DAG) (op : Op) (h : (g.sort).isSome = true) :
    ((applyOp g op).sort).isSome = true := by
  cases op with
  | degreeQuery id => exact h
  | sortQuery => exact h
  | add id node =>
    simp only [applyOp]
    unfold DAG.add_node
    by_cases hc : (DAG.sort ⟨insertMap id node g.inner⟩).isNone
    · rw [if_pos hc]
      exact h
    · rw [if_neg hc, lookupMap_insert_self]
      show (DAG.sort ⟨insertMap id node g.inner⟩).isSome = true
      cases ho : DAG.sort ⟨insertMap id node g.inner⟩ with
      | none => exact absurd (Option.isNone_iff_eq_none.2 ho) hc
      | some l => rfl

/-- Claim C1: acyclicity is an invariant of the public interface: after
any sequence of public operations starting from `DAG::new`, the stored
graph is sortable (`sort` returns `Some`). -/
theorem claim_C1_acyclicity_invariant (ops : List Op) :
    ((runOps ops).sort).isSome = true := by
  unfold runOps
  have hgen : ∀ (l : List Op) (g : DAG), (g.sort).isSome = true →
      ((l.foldl applyOp g).sort).isSome = true := by
    intro l
    induction l with
    | nil => exact fun g h => h
    | cons op rest ih =>
      intro g h
      exact ih (applyOp g op) (applyOp_sortable g op h)
  exact hgen ops DAG.new (by decide)

/-- Claim C5: `sort` succeeds exactly when the emitted sequence is a
permutation of the graph's node identifiers, and any returned order has
the length of the node mapping, no duplicates, and is a permutation of
exactly the keys. -/
theorem claim_C5_sort_completeness (g : DAG) (hwf : g.WF) :
    ((g.sort).isSome = true ↔ (kahnRun g.inner).1.Perm (keysOf g.inner))
    ∧ ∀ order, g.sort = some order →
        order.length = g.inner.length ∧ order.Nodup ∧ order.Perm (keysOf g.inner) := by
  have inv := sort_final g hwf
  have hmf : (kahnRun g.inner).2.length = g.inner.length := kahnRun_snd_length g hwf
  constructor
  · constructor
    · intro hs
      obtain ⟨order, ho⟩ := Option.isSome_iff_exists.1 hs
      obtain ⟨heq, hlen⟩ := sort_spec_some g order ho
      exact success_perm g.inner _ _ inv (by rw [hlen, hmf, ← keysOf_length])
    · intro hperm
      have hlen : (kahnRun g.inner).1.length = (kahnRun g.inner).2.length := by
        rw [hmf, ← keysOf_length g.inner]
        exact hperm.length_eq
      unfold DAG.sort
      rw [if_neg (not_not.2 hlen)]
      rfl
  · intro order ho
    obtain ⟨heq, hlen⟩ := sort_spec_some g order ho
    subst heq
    have hperm := success_perm g.inner _ _ inv (by rw [hlen, hmf, ← keysOf_length])
    exact ⟨by rw [hlen, hmf], inv.sorted_nodup, hperm⟩

theorem claim_C5_witness :
    (DAG.sort exA).isSome = true ↔ (kahnRun exA.inner).1.Perm (keysOf exA.inner) :=
  (claim_C5_sort_completeness exA (by decide)).1

/-- Claim C4: whenever `sort` returns an order, every predecessor listed
in a node's sources occurs in the order at a strictly smaller position
than the node's own identifier. -/
theorem claim_C4_sort_validity (g : DAG) (hwf : g.WF) (order : List Nat)
    (hs : g.sort = some order) (k : Nat) (node : DagNode)
    (hmem : (k, node) ∈ g.inner) (p : Nat) (hp : p ∈ node.sources) :
    p ∈ order ∧ order.indexOf p < order.indexOf k := by
  have inv := sort_final g hwf
  have hmf : (kahnRun g.inner).2.length = g.inner.length := kahnRun_snd_length g hwf
  obtain ⟨heq, hlen⟩ := sort_spec_some g order hs
  subst heq
  have hnd := wf_nodup g hwf
  have hkk : k ∈ keysOf g.inner := List.mem_map_of_mem Prod.fst hmem
  have hperm := success_perm g.inner _ _ inv (by rw [hlen, hmf, ← keysOf_length])
  have hko : k ∈ (kahnRun g.inner).1 := hperm.mem_iff.2 hkk
  have hilt : (kahnRun g.inner).1.indexOf k < (kahnRun g.inner).1.length :=
    List.indexOf_lt_length.2 hko
  have hget : (kahnRun g.inner).1.get ⟨(kahnRun g.inner).1.indexOf k, hilt⟩ = k :=
    List.indexOf_get hilt
  have hsrc : getSrc g.inner k = node.sources := getSrc_of_mem g.inner k node hnd hmem
  have hv := inv.valid ((kahnRun g.inner).1.indexOf k) hilt p (by rw [hget, hsrc]; exact hp)
  exact ⟨List.take_subset _ _ hv,
    indexOf_lt_of_mem_take (kahnRun g.inner).1 ((kahnRun g.inner).1.indexOf k) p hv⟩

theorem claim_C4_witness :
    (2 : Nat) ∈ ([1, 2, 3, 4] : List Nat)
    ∧ ([1, 2, 3, 4] : List Nat).indexOf 2 < ([1, 2, 3, 4] : List Nat).indexOf 4 :=
  claim_C4_sort_validity exA (by decide) [1, 2, 3, 4] (by decide) 4 ⟨[2, 3]⟩ (by decide) 2
    (by decide)

/-- Claim C7: a node whose sources mention an identifier that is not a
key of the mapping never reaches an empty source list, so `sort` returns
`None` for any graph containing such a node. -/
theorem claim_C7_dangling_blocks_sort (g : DAG) (hwf : g.WF) (k : Nat) (node : DagNode)
    (p : Nat) (hmem : (k, node) ∈ g.inner) (hp : p ∈ node.sources)
    (hdang : p ∉ keysOf g.inner) : g.sort = none := by
  have inv := sort_final g hwf
  have hmf : (kahnRun g.inner).2.length = g.inner.length := kahnRun_snd_length g hwf
  have hnd := wf_nodup g hwf
  have hne : (kahnRun g.inner).1.length ≠ (kahnRun g.inner).2.length := by
    intro hlen
    have hperm := success_perm g.inner _ _ inv (by rw [hlen, hmf, ← keysOf_length])
    have hk : k ∈ (kahnRun g.inner).1 :=
      hperm.mem_iff.2 (List.mem_map_of_mem Prod.fst hmem)
    have hdone := inv.sorted_done k hk
    have hsrc : getSrc g.inner k = node.sources := getSrc_of_mem g.inner k node hnd hmem
    rcases inv.track k p (by rw [hsrc]; exact hp) with h1 | h1
    · rw [hdone] at h1
      exact List.not_mem_nil p h1
    · exact hdang (inv.sorted_sub p h1)
  unfold DAG.sort
  rw [if_pos hne]

theorem claim_C7_witness : DAG.sort exDangling = none :=
  claim_C7_dangling_blocks_sort exDangling (by decide) 5 ⟨[99]⟩ 99 (by decide) (by decide)
    (by decide)
